import Mathlib

/-!
Verification of the SwaggerApiDocCreator tool (src/main.go): a shallow
embedding of its data model, schema inference, merge engine and
persistence layer, together with theorems settling the specification's
claims about them.

Modelling conventions:
- Go maps are modelled by `GoMap`, an association list together with a
  distinguished `nil` state (a Go nil map): lookups on a nil map succeed
  and return nothing, but assigning into a nil map panics, which the
  embedding surfaces as `Option.none` from the fallible `set?`.
- Values decoded by `encoding/json` into `interface\x7b\x7d` are modelled by
  `Gval`: JSON strings decode to Go strings, all JSON numbers decode to
  `float64` (modelled with an exact rational payload), booleans to `bool`,
  arrays to `[]interface\x7b\x7d`, objects to `map[string]interface\x7b\x7d`, and
  JSON null to the nil interface.
- A Go panic is modelled as `Option.none` / a dedicated error value.
-/

namespace Swagger

/-- A Go value of dynamic type `interface\x7b\x7d` as produced by
`json.Unmarshal` into `map[string]interface\x7b\x7d` (src/main.go line 137):
strings, `float64` numbers (every JSON number decodes to `float64`; the
numeric payload is kept as an exact rational), booleans, slices, string-keyed
maps, and the nil interface produced by JSON `null`. -/
inductive Gval where
  | gstr (s : String)
  | gnum (q : Rat)
  | gbool (b : Bool)
  | garr (l : List Gval)
  | gobj (m : List (String × Gval))
  | gnil
deriving Repr

/-- The subset of `reflect.Kind` values relevant to `getSwaggerType`
(src/main.go lines 229-246); `other` stands for every remaining kind. -/
inductive Kind where
  | kstring | kint | kint32 | kint64 | kfloat32 | kfloat64
  | kbool | kslice | kmap | other
deriving DecidableEq, Repr

/-- Embeds `getSwaggerType` (src/main.go lines 229-246): the switch over
`reflect.Kind` producing a Swagger type string, with default `"string"`. -/
def getSwaggerType : Kind → String
  | .kstring => "string"
  | .kint | .kint32 | .kint64 => "integer"
  | .kfloat32 | .kfloat64 => "number"
  | .kbool => "boolean"
  | .kslice => "array"
  | .kmap => "object"
  | .other => "string"

/-- The runtime `reflect.Kind` of a decoded JSON value, i.e. the result of
`reflect.TypeOf(value).Kind()` at src/main.go line 215.  JSON numbers decode
to `float64` regardless of integrality.  For the nil interface produced by
JSON `null`, `reflect.TypeOf` returns a nil `reflect.Type` and the `Kind()`
call panics, modelled as `none`. -/
def kindOf : Gval → Option Kind
  | .gstr _ => some .kstring
  | .gnum _ => some .kfloat64
  | .gbool _ => some .kbool
  | .garr _ => some .kslice
  | .gobj _ => some .kmap
  | .gnil => none

/-- A Swagger schema (src/main.go lines 36-39).  `properties` is the Go map
`map[string]Schema` modelled as an association list; no code path in the
program distinguishes a nil properties map from an empty one (it is never
assigned into after construction, and `omitempty` serializes both to
nothing), so both are collapsed to `[]`. -/
inductive Schema where
  | mk (type : String) (properties : List (String × Schema))
deriving Repr

/-- The `Type` field of a `Schema`. -/
def Schema.type : Schema → String
  | .mk t _ => t

/-- The `Properties` field of a `Schema`. -/
def Schema.properties : Schema → List (String × Schema)
  | .mk _ p => p

/-- Association-list lookup with Go map semantics (first match; the lists we
build have pairwise-distinct keys). -/
def alookup {α : Type} : List (String × α) → String → Option α
  | [], _ => none
  | (k, v) :: rest, key => if k = key then some v else alookup rest key

/-- Go map assignment `m[k] = v` on an association list: replaces the
binding when the key is present, appends it otherwise. -/
def insertRep {α : Type} : List (String × α) → String → α → List (String × α)
  | [], key, v => [(key, v)]
  | (k, w) :: rest, key, v =>
      if k = key then (key, v) :: rest else (k, w) :: insertRep rest key v

/-- One iteration of the loop in `generateSchema` (src/main.go lines
214-223): take the runtime kind of the value (panicking on the nil
interface), derive the type string, and assign the property schema, whose
`Properties` field is left at its zero value (nil map). -/
def generateSchemaStep (acc : List (String × Schema)) (kv : String × Gval) :
    Option (List (String × Schema)) := do
  let fieldType ← kindOf kv.2
  let t0 := getSwaggerType fieldType
  let t1 := if fieldType = .kmap then "object"
            else if fieldType = .kslice then "array" else t0
  pure (insertRep acc kv.1 (Schema.mk t1 []))

/-- Embeds `generateSchema` (src/main.go lines 211-226): builds a `Schema`
with `Type = "object"` and one property per key, typed by the runtime kind
of the value; inference never recurses.  Iterating over a key whose value
is the nil interface panics inside `reflect.TypeOf(value).Kind()`, modelled
by returning `none`. -/
def generateSchema (data : List (String × Gval)) : Option Schema := do
  let props ← data.foldlM generateSchemaStep []
  pure (Schema.mk "object" props)

/-- The Swagger type string the schema inferencer assigns to a decoded
value, by constructor; matches `getSwaggerType` composed with `kindOf` on
every non-nil value. -/
def codeTypeFor : Gval → String
  | .gstr _ => "string"
  | .gnum _ => "number"
  | .gbool _ => "boolean"
  | .garr _ => "array"
  | .gobj _ => "object"
  | .gnil => "string"

/-- The per-key type mapping table exactly as the specification words it
(spec §4.2), for comparison with the code's behaviour: an integer-valued
numeric is claimed to map to `"integer"` and a non-integer numeric to
`"number"`. -/
def specTypeFor : Gval → String
  | .gstr _ => "string"
  | .gnum q => if q.den = 1 then "integer" else "number"
  | .gbool _ => "boolean"
  | .garr _ => "array"
  | .gobj _ => "object"
  | .gnil => "string"

/-- A Go map `map[string]α`: either the nil map or an association list of
entries.  Reading from a nil map yields the zero value; writing into a nil
map panics. -/
inductive GoMap (α : Type) where
  | nil : GoMap α
  | mk : List (String × α) → GoMap α
deriving Repr

/-- Go map read `m[k]`: `none` both for a nil map and for a missing key. -/
def GoMap.lookup {α : Type} : GoMap α → String → Option α
  | .nil, _ => none
  | .mk es, k => alookup es k

/-- Whether the map is the nil map (`m == nil` in Go). -/
def GoMap.isNil {α : Type} : GoMap α → Bool
  | .nil => true
  | .mk _ => false

/-- Go map assignment `m[k] = v`: panics (`none`) on a nil map, otherwise
replaces or appends the binding. -/
def GoMap.set? {α : Type} : GoMap α → String → α → Option (GoMap α)
  | .nil, _, _ => none
  | .mk es, k, v => some (.mk (insertRep es k v))

/-- A response media type (src/main.go lines 32-34). -/
structure MediaType where
  schema : Swagger.Schema
deriving Repr

/-- An operation response (src/main.go lines 27-30). -/
structure Response where
  description : String
  content : GoMap MediaType
deriving Repr

/-- An operation (src/main.go lines 21-25).  `responses` is a Go map and may
be nil, e.g. after deserializing a YAML operation without a `responses`
key. -/
structure Operation where
  summary : String
  responses : GoMap Response
  description : String
deriving Repr

/-- A YAML document tree, the semantic content of a YAML file: scalar
strings, null, and string-keyed mappings (the only shapes this program ever
writes or needs to read). -/
inductive Yaml where
  | str (s : String)
  | null
  | map (es : List (String × Yaml))
deriving Repr

/-- The root Swagger document (src/main.go lines 15-19).  `Info` is
`map[string]interface\x7b\x7d` in the source; its dynamically-typed values are
modelled as raw YAML trees. -/
structure SwaggerTemplate where
  openapi : String
  info : GoMap Yaml
  paths : GoMap (GoMap Operation)
deriving Repr

/-- The `"200"` response the tool constructs around an inferred schema
(src/main.go lines 177-184 and 192-201). -/
def mkOkResponse (schema : Schema) : Response :=
  { description := "Successful response"
    content := .mk [("application/json", { schema := schema })] }

/-- The fresh operation the merge engine constructs when `(path, method)`
has no existing entry (src/main.go lines 189-202). -/
def newOperationFor (path : String) (schema : Schema) : Operation :=
  { summary := "Sample operation for " ++ path
    description := "This is a sample description for the new operation."
    responses := .mk [("200", mkOkResponse schema)] }

/-- Embeds the merge engine of `updateSwagger` (src/main.go lines 165-204),
the part the specification calls `applyOperation`: after ensuring `Paths`
and `Paths[path]` are non-nil, either updates the `"200"` response of an
existing operation (panicking, i.e. `none`, when its `Responses` map is
nil) or creates a fresh sample operation. -/
def applyOperation (sw : SwaggerTemplate) (path method : String)
    (schema : Schema) : Option SwaggerTemplate := do
  let paths1 : GoMap (GoMap Operation) :=
    if sw.paths.isNil then .mk [] else sw.paths
  let paths2 ←
    if ((paths1.lookup path).getD .nil).isNil then
      paths1.set? path (.mk [])
    else
      pure paths1
  let inner := (paths2.lookup path).getD .nil
  match inner.lookup method with
  | some existingOperation => do
      let newResponses ←
        existingOperation.responses.set? "200" (mkOkResponse schema)
      let inner2 ← inner.set? method { existingOperation with responses := newResponses }
      let paths3 ← paths2.set? path inner2
      pure { sw with paths := paths3 }
  | none => do
      let newOperation : Operation := newOperationFor path schema
      let inner2 ← inner.set? method newOperation
      let paths3 ← paths2.set? path inner2
      pure { sw with paths := paths3 }

/-- The operation stored at `(path, method)` in a document. -/
def opAt (sw : SwaggerTemplate) (path method : String) : Option Operation :=
  ((sw.paths.lookup path).getD .nil).lookup method

/-- The fresh document `createSwagger` constructs (src/main.go lines
101-110). -/
def createdDoc : SwaggerTemplate :=
  { openapi := "3.0.3"
    info := .mk [("title", .str "New API"),
                 ("description", .str "This is a newly created Swagger API"),
                 ("version", .str "1.0.0")]
    paths := .mk [] }

/-! ### YAML marshalling

Models `yaml.Marshal` / `yaml.Unmarshal` of `gopkg.in/yaml.v2` on the
`SwaggerTemplate` struct, at the level of the document tree (the semantic
key/value content of the emitted text): struct fields are emitted in
declaration order under their `yaml` tag names, a nil map and an empty map
both marshal to an empty mapping, `Schema.Properties` carries `omitempty`
and is dropped when empty, and unmarshalling writes into a zero-valued
struct, leaves fields of missing keys at their zero value, maps YAML null
to the zero value and fails on a kind mismatch (scalar where a mapping is
required or vice versa). -/

/-- Marshal a Go map field given an encoder for its values: nil and empty
maps both emit an empty mapping. -/
def encodeGoMapWith {α : Type} (f : α → Yaml) : GoMap α → Yaml
  | .nil => .map []
  | .mk es => .map (es.map (fun kv => (kv.1, f kv.2)))

mutual

/-- Marshal a `Schema` (yaml tags `type`, `properties,omitempty`). -/
def encodeSchema : Schema → Yaml
  | .mk t props =>
      .map (("type", .str t) ::
        (if props.isEmpty then []
         else [("properties", .map (encodeProps props))]))

/-- Marshal the entries of a `properties` map. -/
def encodeProps : List (String × Schema) → List (String × Yaml)
  | [] => []
  | (k, s) :: rest => (k, encodeSchema s) :: encodeProps rest

end

/-- Marshal a `MediaType` (yaml tag `schema`). -/
def encodeMediaType (m : MediaType) : Yaml :=
  .map [("schema", encodeSchema m.schema)]

/-- Marshal a `Response` (yaml tags `description`, `content`). -/
def encodeResponse (r : Response) : Yaml :=
  .map [("description", .str r.description),
        ("content", encodeGoMapWith encodeMediaType r.content)]

/-- Marshal an `Operation` (yaml tags `summary`, `responses`,
`description`, in field declaration order). -/
def encodeOperation (op : Operation) : Yaml :=
  .map [("summary", .str op.summary),
        ("responses", encodeGoMapWith encodeResponse op.responses),
        ("description", .str op.description)]

/-- Marshal a `SwaggerTemplate` (yaml tags `openapi`, `info`, `paths`). -/
def encodeDoc (sw : SwaggerTemplate) : Yaml :=
  .map [("openapi", .str sw.openapi),
        ("info", encodeGoMapWith id sw.info),
        ("paths", encodeGoMapWith (encodeGoMapWith encodeOperation) sw.paths)]

/-- Unmarshal a string-typed struct field: missing key or null gives the
zero value `""`; a mapping where a scalar is required is an error. -/
def decodeStrField (es : List (String × Yaml)) (name : String) :
    Except Unit String :=
  match alookup es name with
  | none => .ok ""
  | some (.str s) => .ok s
  | some .null => .ok ""
  | some (.map _) => .error ()

/-- Unmarshal a YAML value into a Go map given a decoder for its values:
null gives the nil map; a scalar is an error. -/
def decodeGoMapVal {α : Type} (f : Yaml → Except Unit α) :
    Yaml → Except Unit (GoMap α)
  | .null => .ok .nil
  | .str _ => .error ()
  | .map mes => do
      let des ← mes.mapM (fun kv => do
        let v ← f kv.2
        pure (kv.1, v))
      .ok (.mk des)

/-- Unmarshal a map-typed struct field given a decoder for its values:
missing key or null leaves the nil map. -/
def decodeGoMapField {α : Type} (es : List (String × Yaml)) (name : String)
    (f : Yaml → Except Unit α) : Except Unit (GoMap α) :=
  match alookup es name with
  | none => .ok .nil
  | some y => decodeGoMapVal f y

mutual

/-- Unmarshal a `Schema` value: null gives the zero struct, a scalar is an
error. -/
def decodeSchema : Yaml → Except Unit Schema
  | .str _ => .error ()
  | .null => .ok (.mk "" [])
  | .map es => decodeSchemaAux es (.mk "" [])

/-- Walk the fields of a schema mapping, filling in `type` and
`properties` and ignoring unknown keys. -/
def decodeSchemaAux : List (String × Yaml) → Schema → Except Unit Schema
  | [], acc => .ok acc
  | (k, y) :: rest, acc =>
      if k = "type" then
        match y with
        | .str s => decodeSchemaAux rest (.mk s acc.properties)
        | .null => decodeSchemaAux rest (.mk "" acc.properties)
        | .map _ => .error ()
      else if k = "properties" then
        match y with
        | .null => decodeSchemaAux rest (.mk acc.type [])
        | .str _ => .error ()
        | .map pes => do
            let props ← decodeProps pes
            decodeSchemaAux rest (.mk acc.type props)
      else decodeSchemaAux rest acc

/-- Unmarshal the entries of a `properties` mapping. -/
def decodeProps : List (String × Yaml) → Except Unit (List (String × Schema))
  | [] => .ok []
  | (k, y) :: rest => do
      let s ← decodeSchema y
      let r ← decodeProps rest
      .ok ((k, s) :: r)

end

/-- Unmarshal a `MediaType` value. -/
def decodeMediaType : Yaml → Except Unit MediaType
  | .str _ => .error ()
  | .null => .ok { schema := .mk "" [] }
  | .map es =>
      match alookup es "schema" with
      | none => .ok { schema := .mk "" [] }
      | some y => do
          let s ← decodeSchema y
          .ok { schema := s }

/-- Unmarshal a `Response` value. -/
def decodeResponse : Yaml → Except Unit Response
  | .str _ => .error ()
  | .null => .ok { description := "", content := .nil }
  | .map es => do
      let d ← decodeStrField es "description"
      let c ← decodeGoMapField es "content" decodeMediaType
      .ok { description := d, content := c }

/-- Unmarshal an `Operation` value. -/
def decodeOperation : Yaml → Except Unit Operation
  | .str _ => .error ()
  | .null => .ok { summary := "", responses := .nil, description := "" }
  | .map es => do
      let s ← decodeStrField es "summary"
      let r ← decodeGoMapField es "responses" decodeResponse
      let d ← decodeStrField es "description"
      .ok { summary := s, responses := r, description := d }

/-- Unmarshal a whole `SwaggerTemplate` document, as `yaml.Unmarshal` does
at src/main.go line 256. -/
def decodeDoc : Yaml → Except Unit SwaggerTemplate
  | .str _ => .error ()
  | .null => .ok { openapi := "", info := .nil, paths := .nil }
  | .map es => do
      let o ← decodeStrField es "openapi"
      let i ← decodeGoMapField es "info" .ok
      let p ← decodeGoMapField es "paths" (decodeGoMapVal decodeOperation)
      .ok { openapi := o, info := i, paths := p }

/-! ### File system model -/

/-- The content of a file in the model: a well-formed YAML document tree, a
byte sequence that is not well-formed YAML, or raw text used as JSON
input. -/
inductive FileData where
  | ydoc (t : Yaml)
  | ybad
  | jtext (s : String)
deriving Repr

/-- The file system: an association of paths to file contents. -/
def FS : Type := List (String × FileData)

/-- The error kinds of the persistence adapter: `fileError` for a missing
or unreadable path (`ioutil.ReadFile` fails), `decodeError` for content
that does not unmarshal (`yaml.Unmarshal` fails). -/
inductive RdErr where
  | fileError
  | decodeError
deriving DecidableEq, Repr

/-- Embeds `readSwaggerFile` (src/main.go lines 249-262): read the file,
then unmarshal it.  A file holding raw JSON input text is treated as not
being a well-formed Swagger document. -/
def readSwaggerFile (fs : FS) (filename : String) :
    Except RdErr SwaggerTemplate :=
  match alookup fs filename with
  | none => .error .fileError
  | some .ybad => .error .decodeError
  | some (.jtext _) => .error .decodeError
  | some (.ydoc t) =>
      match decodeDoc t with
      | .error _ => .error .decodeError
      | .ok sw => .ok sw

/-- Embeds `writeSwaggerFile` (src/main.go lines 265-278): marshal the
document and write the file (the model's write always succeeds). -/
def writeSwaggerFile (fs : FS) (filename : String)
    (swagger : SwaggerTemplate) : FS :=
  insertRep fs filename (.ydoc (encodeDoc swagger))

/-- Embeds `createSwagger` (src/main.go lines 101-113): write the fixed
fresh document to the given path. -/
def createSwagger (fs : FS) (filePath : String) : FS :=
  writeSwaggerFile fs filePath createdDoc

/-! ### JSON decoding

Models `json.Unmarshal` into `map[string]interface\x7b\x7d` (src/main.go lines
150 and 156): a recursive-descent parse of the JSON text producing `Gval`s,
with strings handling the standard escape sequences (including `\uXXXX`),
numbers decoded as `float64` (kept exact as rationals), and duplicate
object keys resolved last-wins as Go's map assignment does.  Surrogate
pairs and a few byte-level corner cases of the Go decoder are out of scope;
no claim depends on them. -/

/-- JSON insignificant whitespace. -/
def isJsonWs (c : Char) : Bool :=
  c = ' ' ∨ c = '\t' ∨ c = '\n' ∨ c = '\r'

/-- Drop leading JSON whitespace. -/
def skipWs (cs : List Char) : List Char := cs.dropWhile isJsonWs

/-- The backslash character. -/
def bslash : Char := Char.ofNat 92

/-- The opening brace character. -/
def lbrace : Char := Char.ofNat 123

/-- The closing brace character. -/
def rbrace : Char := Char.ofNat 125

/-- Value of a hexadecimal digit. -/
def hexDigit (c : Char) : Option Nat :=
  if '0' ≤ c ∧ c ≤ '9' then some (c.toNat - 48)
  else if 'a' ≤ c ∧ c ≤ 'f' then some (c.toNat - 87)
  else if 'A' ≤ c ∧ c ≤ 'F' then some (c.toNat - 55)
  else none

/-- Value of a four-digit hexadecimal escape. -/
def hex4 (h1 h2 h3 h4 : Char) : Option Nat := do
  let n1 ← hexDigit h1
  let n2 ← hexDigit h2
  let n3 ← hexDigit h3
  let n4 ← hexDigit h4
  pure (((n1 * 16 + n2) * 16 + n3) * 16 + n4)

/-- The character denoted by a single-character escape sequence. -/
def escChar (c : Char) : Option Char :=
  if c = '"' then some '"'
  else if c = bslash then some bslash
  else if c = '/' then some '/'
  else if c = 'b' then some (Char.ofNat 8)
  else if c = 'f' then some (Char.ofNat 12)
  else if c = 'n' then some '\n'
  else if c = 'r' then some '\r'
  else if c = 't' then some '\t'
  else none

/-- Parse the body of a JSON string after its opening quote, returning the
decoded characters and the input remaining after the closing quote. -/
def parseStrChars : List Char → Option (List Char × List Char)
  | [] => none
  | c :: rest =>
    if c = '"' then some ([], rest)
    else if c = bslash then
      match rest with
      | [] => none
      | e :: rest2 =>
        if e = 'u' then
          match rest2 with
          | h1 :: h2 :: h3 :: h4 :: rest3 =>
            match hex4 h1 h2 h3 h4 with
            | none => none
            | some n =>
              match parseStrChars rest3 with
              | none => none
              | some (o, r) => some (Char.ofNat n :: o, r)
          | _ => none
        else
          match escChar e with
          | none => none
          | some ec =>
            match parseStrChars rest2 with
            | none => none
            | some (o, r) => some (ec :: o, r)
    else
      match parseStrChars rest with
      | none => none
      | some (o, r) => some (c :: o, r)

/-- Characters that may occur in a JSON number token. -/
def isNumChar (c : Char) : Bool :=
  c.isDigit ∨ c = '-' ∨ c = '+' ∨ c = '.' ∨ c = 'e' ∨ c = 'E'

/-- Decimal value of a digit list. -/
def digitsToNat (ds : List Char) : Nat :=
  ds.foldl (fun n c => 10 * n + (c.toNat - 48)) 0

/-- Decode a JSON number token into its exact rational value: optional
sign, integer part, optional fraction, optional exponent. -/
def ratFromTok (tok : List Char) : Option Rat :=
  let (neg, t1) := match tok with
    | '-' :: r => (true, r)
    | _ => (false, tok)
  let (ds, t2) := t1.span Char.isDigit
  if ds.isEmpty then none
  else
    let (fds, t3) := match t2 with
      | '.' :: r => r.span Char.isDigit
      | _ => ([], t2)
    if t2 ≠ [] ∧ t2.head? = some '.' ∧ fds.isEmpty then none
    else
      let base : Rat :=
        (digitsToNat ds : Rat) +
          (digitsToNat fds : Rat) / ((10 : Rat) ^ fds.length)
      let withExp : Option Rat := match t3 with
        | [] => some base
        | e :: r =>
          if e = 'e' ∨ e = 'E' then
            let (esgn, r2) : Bool × List Char := match r with
              | '+' :: rr => (false, rr)
              | '-' :: rr => (true, rr)
              | _ => (false, r)
            let (eds, r3) := r2.span Char.isDigit
            if eds.isEmpty ∨ ¬r3.isEmpty then none
            else if esgn then some (base / ((10 : Rat) ^ digitsToNat eds))
            else some (base * ((10 : Rat) ^ digitsToNat eds))
          else none
      match withExp with
      | none => none
      | some q => some (if neg then -q else q)

/-- Match an expected literal character sequence at the head of the input,
returning the remainder. -/
def stripLit : List Char → List Char → Option (List Char)
  | [], cs => some cs
  | l :: ls, c :: cs => if c = l then stripLit ls cs else none
  | _ :: _, [] => none

mutual

/-- Parse one JSON value, with fuel bounding the nesting depth. -/
def parseVal : Nat → List Char → Option (Gval × List Char)
  | 0, _ => none
  | Nat.succ fuel, cs =>
    match skipWs cs with
    | [] => none
    | c :: rest =>
      if c = '"' then
        match parseStrChars rest with
        | none => none
        | some (o, r) => some (.gstr (String.mk o), r)
      else if c = lbrace then parseObjBody fuel rest
      else if c = '[' then parseArrBody fuel rest
      else if c = 't' then
        match stripLit ['r', 'u', 'e'] rest with
        | some r => some (.gbool true, r)
        | none => none
      else if c = 'f' then
        match stripLit ['a', 'l', 's', 'e'] rest with
        | some r => some (.gbool false, r)
        | none => none
      else if c = 'n' then
        match stripLit ['u', 'l', 'l'] rest with
        | some r => some (.gnil, r)
        | none => none
      else
        match ratFromTok ((c :: rest).takeWhile isNumChar) with
        | none => none
        | some q => some (.gnum q, (c :: rest).dropWhile isNumChar)

/-- Parse an object body after its opening brace: either an immediate
closing brace or a member list. -/
def parseObjBody : Nat → List Char → Option (Gval × List Char)
  | 0, _ => none
  | Nat.succ fuel, cs =>
    match skipWs cs with
    | [] => none
    | c :: rest =>
      if c = rbrace then some (.gobj [], rest)
      else parseMembers fuel (c :: rest) []

/-- Parse the members of an object; duplicate keys resolve last-wins, as
assigning into the Go map does. -/
def parseMembers : Nat → List Char → List (String × Gval) →
    Option (Gval × List Char)
  | 0, _, _ => none
  | Nat.succ fuel, cs, acc =>
    match skipWs cs with
    | [] => none
    | c :: rest =>
      if c = '"' then
        match parseStrChars rest with
        | none => none
        | some (kcs, r1) =>
          match skipWs r1 with
          | [] => none
          | c1 :: r2 =>
            if c1 = ':' then
              match parseVal fuel r2 with
              | none => none
              | some (v, r3) =>
                let acc2 := insertRep acc (String.mk kcs) v
                match skipWs r3 with
                | [] => none
                | c2 :: r4 =>
                  if c2 = ',' then parseMembers fuel r4 acc2
                  else if c2 = rbrace then some (.gobj acc2, r4)
                  else none
            else none
      else none

/-- Parse an array body after its opening bracket. -/
def parseArrBody : Nat → List Char → Option (Gval × List Char)
  | 0, _ => none
  | Nat.succ fuel, cs =>
    match skipWs cs with
    | [] => none
    | c :: rest =>
      if c = ']' then some (.garr [], rest)
      else parseElems fuel (c :: rest) []

/-- Parse the elements of an array. -/
def parseElems : Nat → List Char → List Gval → Option (Gval × List Char)
  | 0, _, _ => none
  | Nat.succ fuel, cs, acc =>
    match parseVal fuel cs with
    | none => none
    | some (v, r) =>
      let acc2 := acc ++ [v]
      match skipWs r with
      | [] => none
      | c2 :: r2 =>
        if c2 = ',' then parseElems fuel r2 acc2
        else if c2 = ']' then some (.garr acc2, r2)
        else none

end

/-- Models `json.Unmarshal(data, &jsonData)` with target
`map[string]interface\x7b\x7d`: parse one JSON value, require that only
whitespace remains, and require the top-level value to be an object. -/
def jsonUnmarshalObj (s : String) : Option (List (String × Gval)) :=
  match parseVal (2 * s.length + 8) s.toList with
  | none => none
  | some (v, rest) =>
    if (skipWs rest).isEmpty then
      match v with
      | .gobj m => some m
      | _ => none
    else none

/-! ### The update flow -/

/-- Whether a character is an ASCII uppercase letter (`A`-`Z`). -/
def isUpperAscii (c : Char) : Bool := decide (65 ≤ c.toNat ∧ c.toNat ≤ 90)

/-- Models Go's `strings.ToLower` character-wise on the ASCII range (the
only range these claims exercise): an uppercase letter moves down 32 code
points, everything else is unchanged. -/
def goCharToLower (c : Char) : Char :=
  if 65 ≤ c.toNat ∧ c.toNat ≤ 90 then Char.ofNat (c.toNat + 32) else c

/-- Models Go's `strings.ToLower`. -/
def goToLower (s : String) : String := String.mk (s.data.map goCharToLower)

/-- Models Go's `strings.TrimSpace`: remove leading and trailing
whitespace. -/
def goTrimSpace (s : String) : String :=
  String.mk (((s.data.dropWhile Char.isWhitespace).reverse.dropWhile
    Char.isWhitespace).reverse)

/-- The error outcomes of one `update` command: a failing file read, a
failing YAML decode, a failing JSON decode, or a runtime panic (which kills
the process rather than returning an error). -/
inductive UpdateErr where
  | fileErr
  | yamlErr
  | jsonErr
  | panicked
deriving DecidableEq, Repr

/-- The JSON text handed to `json.Unmarshal` by the update flow
(src/main.go lines 133-160): the prompt line is lower-cased then trimmed;
if it is the keyword `"file"` the JSON is read from the named file with its
case preserved, otherwise the lower-cased line itself is decoded.  A
referenced file that is missing is a read error; file contents other than
raw text never hold valid JSON in this model. -/
def jsonInputText (fs : FS) (inputRaw jsonFileRaw : String) :
    Except UpdateErr String :=
  let inputType := goTrimSpace (goToLower inputRaw)
  if inputType = "file" then
    match alookup fs (goTrimSpace jsonFileRaw) with
    | none => .error .fileErr
    | some (.jtext s) => .ok s
    | some _ => .error .jsonErr
  else
    .ok inputType

/-- Embeds the whole `updateSwagger` flow (src/main.go lines 116-208):
read the Swagger file, trim the path, lower-case and trim the method,
obtain and decode the JSON input, infer the schema, merge, and only then
write.  Returns the command's outcome together with the resulting file
system; every failure before the write leaves the file system unchanged. -/
def updateSwagger (fs : FS)
    (filePath pathRaw methodRaw inputRaw jsonFileRaw : String) :
    Except UpdateErr Unit × FS :=
  match readSwaggerFile fs filePath with
  | .error .fileError => (.error .fileErr, fs)
  | .error .decodeError => (.error .yamlErr, fs)
  | .ok swagger =>
    let path := goTrimSpace pathRaw
    let method := goToLower (goTrimSpace methodRaw)
    match jsonInputText fs inputRaw jsonFileRaw with
    | .error e => (.error e, fs)
    | .ok text =>
      match jsonUnmarshalObj text with
      | none => (.error .jsonErr, fs)
      | some jsonData =>
        match generateSchema jsonData with
        | none => (.error .panicked, fs)
        | some schema =>
          match applyOperation swagger path method schema with
          | none => (.error .panicked, fs)
          | some sw2 => (.ok (), writeSwaggerFile fs filePath sw2)

/-- Map a function over a Go map's values while collapsing the nil map to
the empty map — exactly the change of representation a YAML
marshal/unmarshal round trip applies (nil and empty maps both emit an
empty mapping, which unmarshals to an allocated empty map). -/
def gomapToMk {α β : Type} (g : α → β) : GoMap α → GoMap β
  | .nil => .mk []
  | .mk es => .mk (es.map (fun kv => (kv.1, g kv.2)))

/-- The representation a `Response` assumes after a YAML round trip. -/
def normResponse (r : Response) : Response :=
  { r with content := gomapToMk id r.content }

/-- The representation an `Operation` assumes after a YAML round trip. -/
def normOperation (op : Operation) : Operation :=
  { op with responses := gomapToMk normResponse op.responses }

/-- The representation a `SwaggerTemplate` assumes after a YAML round
trip: nil maps become empty maps; all keys and values are preserved. -/
def normDoc (d : SwaggerTemplate) : SwaggerTemplate :=
  { d with info := gomapToMk id d.info
           paths := gomapToMk (gomapToMk normOperation) d.paths }

/-! ### Case predicates on decoded values -/

/-- Whether a string contains no uppercase letter. -/
def strNoUpper (s : String) : Bool := s.data.all (fun c => !(isUpperAscii c))

mutual

/-- Whether every key and string value inside a decoded value contains no
uppercase letter. -/
def gvalNoUpper : Gval → Bool
  | .gstr s => strNoUpper s
  | .gnum _ => true
  | .gbool _ => true
  | .gnil => true
  | .garr l => glistNoUpper l
  | .gobj m => gpairsNoUpper m

/-- `gvalNoUpper` over a list of values. -/
def glistNoUpper : List Gval → Bool
  | [] => true
  | v :: r => gvalNoUpper v && glistNoUpper r

/-- `gvalNoUpper` over the entries of a decoded object. -/
def gpairsNoUpper : List (String × Gval) → Bool
  | [] => true
  | (k, v) :: r => strNoUpper k && gvalNoUpper v && gpairsNoUpper r

end

/-! ### Concrete example data used by witnesses -/

/-- The sample JSON of the specification's scenario:
`\x7b"id": 1, "name": "Rex"\x7d`. -/
def jsonSample : String := "\x7b\"id\": 1, \"name\": \"Rex\"\x7d"

/-- A JSON literal typed at the update prompt whose only uppercase letter
hides behind a unicode escape: `\x7b"a": "\u0052ex"\x7d`.  As text it contains
no uppercase letter, so lower-casing leaves it unchanged. -/
def claim9Input : String := "\x7b\"a\": \"\\u0052ex\"\x7d"

/-- A YAML document whose single operation has no `responses` key, so its
`Responses` map deserializes to a nil map. -/
def yamlNoResponses : Yaml :=
  .map [("openapi", .str "3.0.3"),
        ("paths", .map [("/pets", .map [("get",
          .map [("summary", .str "existing"),
                ("description", .str "old")])])])]

/-- The document `yamlNoResponses` deserializes to. -/
def docNoResponses : SwaggerTemplate :=
  { openapi := "3.0.3"
    info := .nil
    paths := .mk [("/pets", .mk [("get",
      { summary := "existing", responses := .nil, description := "old" })])] }

/-- A document with one existing operation at `("/pets", "get")` holding a
`"404"` response, used to exercise the update branch of the merge
engine. -/
def docWith404 : SwaggerTemplate :=
  { openapi := "3.0.3"
    info := .nil
    paths := .mk [("/pets", .mk [("get",
      { summary := "old summary"
        responses := .mk [("404", { description := "not found", content := .nil })]
        description := "old description" })])] }

/-! ## Helper lemmas on association lists and Go maps -/

theorem alookup_insertRep {α : Type} (es : List (String × α)) (k k2 : String)
    (v : α) :
    alookup (insertRep es k v) k2 =
      if k = k2 then some v else alookup es k2 := by
  induction es with
  | nil => simp [insertRep, alookup]
  | cons hd tl ih =>
      obtain ⟨k1, w⟩ := hd
      by_cases h1 : k1 = k
      · subst h1
        simp only [insertRep, if_pos rfl, alookup]
        by_cases h2 : k1 = k2
        · subst h2; simp [alookup]
        · simp [alookup, h2]
      · simp only [insertRep, if_neg h1, alookup]
        by_cases h2 : k1 = k2
        · subst h2
          have : k ≠ k1 := fun h => h1 h.symm
          simp [alookup, if_neg this]
        · simp [alookup, h2, ih]

theorem insertRep_of_alookup_none {α : Type} (es : List (String × α))
    (k : String) (v : α) (h : alookup es k = none) :
    insertRep es k v = es ++ [(k, v)] := by
  induction es with
  | nil => simp [insertRep]
  | cons hd tl ih =>
      obtain ⟨k1, w⟩ := hd
      simp only [alookup] at h
      by_cases h1 : k1 = k
      · simp [h1] at h
      · simp only [insertRep, if_neg h1, List.cons_append, List.cons.injEq,
          true_and]
        exact ih (by simpa [h1] using h)

theorem alookup_append {α : Type} (xs ys : List (String × α)) (k : String) :
    alookup (xs ++ ys) k = ((alookup xs k).orElse (fun _ => alookup ys k)) := by
  induction xs with
  | nil => simp [alookup]
  | cons hd tl ih =>
      obtain ⟨k1, w⟩ := hd
      by_cases h1 : k1 = k
      · simp [alookup, h1]
      · simp [alookup, h1, ih]

theorem alookup_map_val {α β : Type} (es : List (String × α)) (g : α → β)
    (k : String) :
    alookup (es.map (fun kv => (kv.1, g kv.2))) k = (alookup es k).map g := by
  induction es with
  | nil => simp [alookup]
  | cons hd tl ih =>
      obtain ⟨k1, w⟩ := hd
      by_cases h1 : k1 = k
      · simp [alookup, h1]
      · simp [alookup, h1, ih]

/-! ## Schema inference lemmas -/

theorem generateSchemaStep_eq (acc : List (String × Schema))
    (kv : String × Gval) (h : kv.2 ≠ Gval.gnil) :
    generateSchemaStep acc kv =
      some (insertRep acc kv.1 (Schema.mk (codeTypeFor kv.2) [])) := by
  obtain ⟨k, v⟩ := kv
  cases v <;>
    simp_all [generateSchemaStep, kindOf, getSwaggerType, codeTypeFor]

theorem generateSchemaStep_gnil (acc : List (String × Schema)) (k : String) :
    generateSchemaStep acc (k, Gval.gnil) = none := rfl

theorem foldlM_generateSchemaStep (data : List (String × Gval)) :
    ∀ acc : List (String × Schema),
    (data.map Prod.fst).Nodup →
    (∀ kv ∈ data, kv.2 ≠ Gval.gnil) →
    (∀ kv ∈ data, alookup acc kv.1 = none) →
    data.foldlM generateSchemaStep acc =
      some (acc ++
        data.map (fun kv => (kv.1, Schema.mk (codeTypeFor kv.2) []))) := by
  induction data with
  | nil => intro acc _ _ _; simp
  | cons hd tl ih =>
      intro acc hnd hnn hdisj
      obtain ⟨k, v⟩ := hd
      have hv : ((k, v) : String × Gval).2 ≠ Gval.gnil :=
        hnn (k, v) (by simp)
      rw [List.foldlM_cons, generateSchemaStep_eq _ _ hv]
      have hacc : alookup acc k = none := hdisj (k, v) (by simp)
      simp only [insertRep_of_alookup_none _ _ _ hacc]
      have hnd2 : (k :: tl.map Prod.fst).Nodup := by simpa using hnd
      have hknotin : k ∉ tl.map Prod.fst := (List.nodup_cons.mp hnd2).1
      have hrec := ih (acc ++ [(k, Schema.mk (codeTypeFor v) [])])
        (List.nodup_cons.mp hnd2).2
        (fun kv hm => hnn kv (List.mem_cons_of_mem _ hm))
        (fun kv hm => by
          rw [alookup_append]
          have h1 : alookup acc kv.1 = none :=
            hdisj kv (List.mem_cons_of_mem _ hm)
          have h2 : kv.1 ≠ k := by
            intro hk
            exact hknotin (hk ▸ List.mem_map_of_mem Prod.fst hm)
          have h3 : ¬ k = kv.1 := fun h => h2 h.symm
          simp [h1, alookup, h3])
      simp only [Option.bind_eq_bind, Option.some_bind, hrec,
        List.map_cons, List.append_assoc, List.singleton_append]

theorem generateSchema_eq (data : List (String × Gval))
    (hnd : (data.map Prod.fst).Nodup)
    (hnn : ∀ kv ∈ data, kv.2 ≠ Gval.gnil) :
    generateSchema data =
      some (Schema.mk "object"
        (data.map (fun kv => (kv.1, Schema.mk (codeTypeFor kv.2) [])))) := by
  unfold generateSchema
  rw [foldlM_generateSchemaStep data [] hnd hnn (fun kv _ => rfl)]
  rfl

theorem foldlM_generateSchemaStep_nonnil (data : List (String × Gval)) :
    ∀ (acc : List (String × Schema)) (r : List (String × Schema)),
    data.foldlM generateSchemaStep acc = some r →
    ∀ kv ∈ data, kv.2 ≠ Gval.gnil := by
  induction data with
  | nil => intro acc r _ kv hm; simp at hm
  | cons hd tl ih =>
      intro acc r h kv hm
      rw [List.foldlM_cons] at h
      cases hstep : generateSchemaStep acc hd with
      | none => rw [hstep] at h; simp at h
      | some acc2 =>
          rw [hstep] at h
          simp only [Option.bind_eq_bind, Option.some_bind] at h
          rcases List.mem_cons.mp hm with heq | hmem
          · subst heq
            intro hnil
            obtain ⟨k, v⟩ := kv
            simp only at hnil
            subst hnil
            rw [generateSchemaStep_gnil] at hstep
            exact Option.noConfusion hstep
          · exact ih acc2 r h kv hmem

theorem generateSchema_some_nonnil (data : List (String × Gval)) (s : Schema)
    (h : generateSchema data = some s) :
    ∀ kv ∈ data, kv.2 ≠ Gval.gnil := by
  unfold generateSchema at h
  cases hf : data.foldlM generateSchemaStep [] with
  | none => rw [hf] at h; simp at h
  | some props => exact foldlM_generateSchemaStep_nonnil data [] props hf

/-! ## Claims C1-C3: schema inference -/

/-- C1 counterexample: on the decoded form of the specification's own
sample JSON `\x7b"id": 1, "name": "Rex"\x7d` — where `json.Unmarshal` has
decoded the integer-valued number `1` into a `float64` — the inferred type
of `id` is `"number"`, not the `"integer"` the claim's table
(`specTypeFor`) demands. -/
theorem claim1_counterexample :
    generateSchema [("id", Gval.gnum 1), ("name", Gval.gstr "Rex")] =
      some (Schema.mk "object"
        [("id", Schema.mk "number" []), ("name", Schema.mk "string" [])]) ∧
    specTypeFor (Gval.gnum 1) = "integer" ∧
    ¬ ("number" : String) = "integer" := by
  refine ⟨rfl, ?_, by decide⟩
  show (if (1 : Rat).den = 1 then "integer" else "number") = "integer"
  norm_num

/-- C1 (amended): the property type is determined by the runtime kind of
the decoded value via `codeTypeFor`: strings map to `"string"`, every
numeric value (integer-valued or not, since `json.Unmarshal` decodes all
JSON numbers to `float64`) to `"number"`, booleans to `"boolean"`, arrays
to `"array"`, nested objects to `"object"`; the sample update JSON
`\x7b"id": 1, "name": "Rex"\x7d` yields properties `id : "number"` and
`name : "string"`. -/
theorem claim1_amended_theorem :
    (∀ (data : List (String × Gval)) (s : Schema),
      (data.map Prod.fst).Nodup →
      generateSchema data = some s →
      ∀ (k : String) (v : Gval), alookup data k = some v →
        alookup s.properties k = some (Schema.mk (codeTypeFor v) [])) ∧
    (jsonUnmarshalObj jsonSample).bind generateSchema =
      some (Schema.mk "object"
        [("id", Schema.mk "number" []), ("name", Schema.mk "string" [])]) := by
  constructor
  · intro data s hnd h k v hl
    have hnn := generateSchema_some_nonnil data s h
    rw [generateSchema_eq data hnd hnn] at h
    cases h
    show alookup (data.map (fun kv => (kv.1, Schema.mk (codeTypeFor kv.2) []))) k
      = some (Schema.mk (codeTypeFor v) [])
    rw [alookup_map_val data (fun v => Schema.mk (codeTypeFor v) []) k, hl]
    rfl
  · rfl

/-- C1 witness: the amended mapping theorem applied at the concrete object
`\x7b"flag": true\x7d`. -/
theorem claim1_witness :
    alookup [("flag", Gval.gbool true)] "flag" = some (Gval.gbool true) ∧
    generateSchema [("flag", Gval.gbool true)] =
      some (Schema.mk "object" [("flag", Schema.mk "boolean" [])]) ∧
    alookup (Schema.mk "object"
      [("flag", Schema.mk "boolean" [])]).properties "flag" =
      some (Schema.mk (codeTypeFor (Gval.gbool true)) []) := by
  have h := claim1_amended_theorem.1 [("flag", Gval.gbool true)]
    (Schema.mk "object" [("flag", Schema.mk "boolean" [])]) (by simp) rfl
    "flag" (Gval.gbool true) rfl
  exact ⟨rfl, rfl, h⟩

/-- C2 counterexample: a decoded object containing a JSON null value never
produces a Schema at all — the inference loop panics on the nil interface
(modelled as `none`) — so the claim's universal statement over every
decoded JSON object fails. -/
theorem claim2_counterexample :
    generateSchema [("a", Gval.gnil), ("b", Gval.gnum 1)] = none := rfl

/-- C2 (amended): for every decoded JSON object none of whose values is
JSON null (a null value makes inference panic, see C3), inference returns a
Schema with type `"object"`, exactly one properties entry per key, and no
recursion: every property schema has an empty properties set. -/
theorem claim2_theorem (data : List (String × Gval))
    (hnd : (data.map Prod.fst).Nodup)
    (hnn : ∀ kv ∈ data, kv.2 ≠ Gval.gnil) :
    ∃ s, generateSchema data = some s ∧ s.type = "object" ∧
      s.properties.map Prod.fst = data.map Prod.fst ∧
      ∀ kv ∈ s.properties, kv.2.properties = [] := by
  refine ⟨_, generateSchema_eq data hnd hnn, rfl, ?_, ?_⟩
  · simp [Schema.properties]
  · intro kv hm
    simp only [Schema.properties, List.mem_map] at hm
    obtain ⟨kv0, _, rfl⟩ := hm
    rfl

/-- C2 witness: the amended theorem applied at the concrete object
`\x7b"x": "y", "z": [1]\x7d`. -/
theorem claim2_witness :
    ∃ s, generateSchema [("x", Gval.gstr "y"), ("z", Gval.garr [Gval.gnum 1])]
        = some s ∧
      s.type = "object" ∧
      s.properties.map Prod.fst = ["x", "z"] ∧
      ∀ kv ∈ s.properties, kv.2.properties = [] := by
  have h := claim2_theorem [("x", Gval.gstr "y"), ("z", Gval.garr [Gval.gnum 1])]
    (by simp)
    (by
      intro kv hm
      rcases List.mem_cons.mp hm with h1 | h1
      · subst h1; simp
      · simp only [List.mem_singleton] at h1
        subst h1; simp)
  simpa using h

/-! ## Claims C4, C5, C10: the merge engine -/

/-- C4: applied to a document with no operation at `(path, method)`, the
merge engine creates exactly one new operation with the sample summary, the
fixed placeholder description and a single `"200"` response wrapping the
inferred schema; every other path of the document is unchanged and no entry
is created for unrelated paths. -/
theorem claim4_theorem (sw : SwaggerTemplate) (path method : String)
    (schema : Schema) (h : opAt sw path method = none) :
    ∃ sw2, applyOperation sw path method schema = some sw2 ∧
      opAt sw2 path method = some (newOperationFor path schema) ∧
      (∀ p, p ≠ path → sw2.paths.lookup p = sw.paths.lookup p) ∧
      sw2.openapi = sw.openapi ∧ sw2.info = sw.info := by
  cases hsw : sw.paths with
  | nil =>
      refine ⟨{ sw with
          paths := GoMap.mk [(path, GoMap.mk [(method, newOperationFor path schema)])] },
        ?_, ?_, ?_, rfl, rfl⟩
      · simp [applyOperation, hsw, GoMap.isNil, GoMap.lookup, GoMap.set?,
          insertRep, alookup, Option.getD]
      · simp [opAt, GoMap.lookup, alookup]
      · intro p hp
        have hp2 : ¬ path = p := fun hh => hp hh.symm
        simp [hsw, GoMap.lookup, alookup, hp2]
  | mk es =>
      cases hlp : alookup es path with
      | none =>
          refine ⟨{ sw with
              paths := GoMap.mk (insertRep (insertRep es path (GoMap.mk [])) path (GoMap.mk [(method, newOperationFor path schema)])) },
            ?_, ?_, ?_, rfl, rfl⟩
          · simp [applyOperation, hsw, GoMap.isNil, GoMap.lookup, GoMap.set?,
              hlp, alookup_insertRep, insertRep, alookup, Option.getD]
          · simp [opAt, GoMap.lookup, alookup_insertRep, alookup]
          · intro p hp
            have hp2 : ¬ path = p := fun hh => hp hh.symm
            simp [hsw, GoMap.lookup, alookup_insertRep, hp2]
      | some inn =>
          cases inn with
          | nil =>
              refine ⟨{ sw with
                  paths := GoMap.mk (insertRep (insertRep es path (GoMap.mk [])) path (GoMap.mk [(method, newOperationFor path schema)])) },
                ?_, ?_, ?_, rfl, rfl⟩
              · simp [applyOperation, hsw, GoMap.isNil, GoMap.lookup, GoMap.set?,
                  hlp, alookup_insertRep, insertRep, alookup, Option.getD]
              · simp [opAt, GoMap.lookup, alookup_insertRep, alookup]
              · intro p hp
                have hp2 : ¬ path = p := fun hh => hp hh.symm
                simp [hsw, GoMap.lookup, alookup_insertRep, hp2]
          | mk ies =>
              have hmeth : alookup ies method = none := by
                simpa [opAt, hsw, GoMap.lookup, hlp, Option.getD] using h
              refine ⟨{ sw with
                  paths := GoMap.mk (insertRep es path (GoMap.mk (insertRep ies method (newOperationFor path schema)))) },
                ?_, ?_, ?_, rfl, rfl⟩
              · simp [applyOperation, hsw, GoMap.isNil, GoMap.lookup, GoMap.set?,
                  hlp, hmeth, alookup_insertRep, Option.getD]
              · simp [opAt, GoMap.lookup, alookup_insertRep, alookup]
              · intro p hp
                have hp2 : ¬ path = p := fun hh => hp hh.symm
                simp [hsw, GoMap.lookup, alookup_insertRep, hp2]

/-- C4 witness: the creation branch exercised on the freshly created
document at `("/pets", "get")`. -/
theorem claim4_witness :
    opAt createdDoc "/pets" "get" = none ∧
    ∃ sw2, applyOperation createdDoc "/pets" "get" (Schema.mk "object" [])
        = some sw2 ∧
      opAt sw2 "/pets" "get" =
        some (newOperationFor "/pets" (Schema.mk "object" [])) ∧
      (∀ p, p ≠ "/pets" → sw2.paths.lookup p = createdDoc.paths.lookup p) ∧
      sw2.openapi = createdDoc.openapi ∧ sw2.info = createdDoc.info :=
  ⟨rfl, claim4_theorem createdDoc "/pets" "get" (Schema.mk "object" []) rfl⟩

/-- C5: applied to a document that already has an operation at
`(path, method)` (whose responses map, being assigned into, must be
non-nil — see C10), the merge engine preserves the operation's summary and
description and every response code other than `"200"`, and replaces only
the `"200"` response with a freshly constructed response wrapping the new
schema. -/
theorem claim5_theorem (sw : SwaggerTemplate) (path method : String)
    (schema : Schema) (op : Operation) (rs : List (String × Response))
    (hop : opAt sw path method = some op)
    (hrs : op.responses = GoMap.mk rs) :
    ∃ sw2, applyOperation sw path method schema = some sw2 ∧
      ∃ op2, opAt sw2 path method = some op2 ∧
        op2.summary = op.summary ∧
        op2.description = op.description ∧
        op2.responses.lookup "200" = some (mkOkResponse schema) ∧
        (∀ code, code ≠ "200" →
          op2.responses.lookup code = op.responses.lookup code) ∧
        (∀ p, p ≠ path → sw2.paths.lookup p = sw.paths.lookup p) := by
  cases hsw : sw.paths with
  | nil => rw [opAt, hsw] at hop; simp [GoMap.lookup, Option.getD] at hop
  | mk es =>
      cases hlp : alookup es path with
      | none =>
          rw [opAt, hsw] at hop
          simp [GoMap.lookup, hlp, Option.getD] at hop
      | some inn =>
          cases inn with
          | nil =>
              rw [opAt, hsw] at hop
              simp [GoMap.lookup, hlp, Option.getD] at hop
          | mk ies =>
              have hmeth : alookup ies method = some op := by
                rw [opAt, hsw] at hop
                simpa [GoMap.lookup, hlp, Option.getD] using hop
              refine ⟨{ sw with
                  paths := GoMap.mk (insertRep es path (GoMap.mk (insertRep ies method { op with responses := GoMap.mk (insertRep rs "200" (mkOkResponse schema)) }))) },
                ?_, ?_⟩
              · simp [applyOperation, hsw, GoMap.isNil, GoMap.lookup,
                  GoMap.set?, hlp, hmeth, hrs, Option.getD]
              · refine ⟨{ op with
                    responses := GoMap.mk (insertRep rs "200" (mkOkResponse schema)) },
                  ?_, rfl, rfl, ?_, ?_, ?_⟩
                · simp [opAt, GoMap.lookup, alookup_insertRep, Option.getD]
                · simp [GoMap.lookup, alookup_insertRep]
                · intro code hcode
                  have hcode2 : ¬ ("200" : String) = code :=
                    fun hh => hcode hh.symm
                  simp [GoMap.lookup, alookup_insertRep, hcode2, hrs]
                · intro p hp
                  have hp2 : ¬ path = p := fun hh => hp hh.symm
                  simp [hsw, GoMap.lookup, alookup_insertRep, hp2]

/-- C5 witness: the update branch exercised on a document whose existing
operation holds a `"404"` response: summary, description and the `"404"`
response survive, `"200"` is replaced. -/
theorem claim5_witness :
    opAt docWith404 "/pets" "get" = some
      { summary := "old summary"
        responses := GoMap.mk
          [("404", { description := "not found", content := GoMap.nil })]
        description := "old description" } ∧
    ∃ sw2, applyOperation docWith404 "/pets" "get" (Schema.mk "object" [])
        = some sw2 ∧
      ∃ op2, opAt sw2 "/pets" "get" = some op2 ∧
        op2.summary = "old summary" ∧
        op2.description = "old description" ∧
        op2.responses.lookup "200" =
          some (mkOkResponse (Schema.mk "object" [])) ∧
        (∀ code, code ≠ "200" → op2.responses.lookup code =
          GoMap.lookup (GoMap.mk
            [("404", { description := "not found", content := GoMap.nil })])
            code) ∧
        (∀ p, p ≠ "/pets" → sw2.paths.lookup p = docWith404.paths.lookup p) :=
  ⟨rfl, claim5_theorem docWith404 "/pets" "get" (Schema.mk "object" [])
    { summary := "old summary"
      responses := GoMap.mk
        [("404", { description := "not found", content := GoMap.nil })]
      description := "old description" }
    [("404", { description := "not found", content := GoMap.nil })] rfl rfl⟩

/-- C10: the update branch of the merge engine requires the existing
operation's responses map to be non-nil: when the operation at
`(path, method)` has a nil responses map (as deserialized from a YAML
operation without a `responses` key), the assignment of the new `"200"`
response panics — modelled as `none` — instead of returning an error. -/
theorem claim10_theorem (sw : SwaggerTemplate) (path method : String)
    (schema : Schema) (op : Operation)
    (hop : opAt sw path method = some op)
    (hnil : op.responses = GoMap.nil) :
    applyOperation sw path method schema = none := by
  cases hsw : sw.paths with
  | nil => rw [opAt, hsw] at hop; simp [GoMap.lookup, Option.getD] at hop
  | mk es =>
      cases hlp : alookup es path with
      | none =>
          rw [opAt, hsw] at hop
          simp [GoMap.lookup, hlp, Option.getD] at hop
      | some inn =>
          cases inn with
          | nil =>
              rw [opAt, hsw] at hop
              simp [GoMap.lookup, hlp, Option.getD] at hop
          | mk ies =>
              have hmeth : alookup ies method = some op := by
                rw [opAt, hsw] at hop
                simpa [GoMap.lookup, hlp, Option.getD] using hop
              simp [applyOperation, hsw, GoMap.isNil, GoMap.lookup,
                GoMap.set?, hlp, hmeth, hnil, Option.getD]

/-- C10 witness: a YAML document whose operation has no `responses` key
deserializes to a nil responses map, and updating it panics (`none`). -/
theorem claim10_witness :
    decodeDoc yamlNoResponses = .ok docNoResponses ∧
    (opAt docNoResponses "/pets" "get").map Operation.responses
      = some GoMap.nil ∧
    applyOperation docNoResponses "/pets" "get" (Schema.mk "object" [])
      = none :=
  ⟨rfl, rfl, claim10_theorem docNoResponses "/pets" "get"
    (Schema.mk "object" [])
    { summary := "existing", responses := GoMap.nil, description := "old" }
    rfl rfl⟩

/-- C3: schema inference is not total — on a decoded object with a JSON
null value (the nil interface), `reflect.TypeOf(value)` returns a nil
`reflect.Type` and the `Kind()` call panics (modelled as `none`) instead of
falling back to `"string"` as the specification's default-case table
requires. -/
theorem claim3_theorem :
    generateSchema [("x", Gval.gnil)] = none ∧ kindOf Gval.gnil = none :=
  ⟨rfl, rfl⟩

/-! ## YAML round-trip lemmas -/

theorem except_bind_ok {ε α β : Type} (a : α) (f : α → Except ε β) :
    (Except.ok a >>= f : Except ε β) = f a := rfl

theorem except_bind_error {ε α β : Type} (e : ε) (f : α → Except ε β) :
    (Except.error e >>= f : Except ε β) = Except.error e := rfl

theorem except_map_ok {ε α β : Type} (g : α → β) (a : α) :
    (g <$> (Except.ok a : Except ε α) : Except ε β) = Except.ok (g a) := rfl

mutual

theorem decodeSchema_encodeSchema : ∀ (s : Schema),
    decodeSchema (encodeSchema s) = Except.ok s
  | .mk t props => by
      cases hp : props with
      | nil => simp [encodeSchema, decodeSchema, decodeSchemaAux,
          Schema.properties]
      | cons hd tl =>
          have hrt := decodeProps_encodeProps props
          rw [hp] at hrt
          simp [encodeSchema, hp, decodeSchema, decodeSchemaAux,
            Schema.properties, Schema.type, hrt, except_bind_ok]

theorem decodeProps_encodeProps : ∀ (props : List (String × Schema)),
    decodeProps (encodeProps props) = Except.ok props
  | [] => by simp [encodeProps, decodeProps]
  | (k, s) :: rest => by
      have h1 := decodeSchema_encodeSchema s
      have h2 := decodeProps_encodeProps rest
      simp [encodeProps, decodeProps, h1, h2, except_bind_ok]

end

theorem decodeMediaType_encodeMediaType (m : MediaType) :
    decodeMediaType (encodeMediaType m) = Except.ok m := by
  simp [encodeMediaType, decodeMediaType, alookup,
    decodeSchema_encodeSchema m.schema, except_bind_ok]

theorem decodeGoMapVal_encodeGoMapWith {α β : Type} (f : α → Yaml)
    (dec : Yaml → Except Unit β) (g : α → β) (m : GoMap α)
    (h : ∀ a, dec (f a) = .ok (g a)) :
    decodeGoMapVal dec (encodeGoMapWith f m) = .ok (gomapToMk g m) := by
  cases m with
  | nil =>
      simp only [encodeGoMapWith, decodeGoMapVal, gomapToMk]
      rw [List.mapM_nil]
      rfl
  | mk es =>
      simp only [encodeGoMapWith, decodeGoMapVal, gomapToMk]
      induction es with
      | nil => rw [List.map_nil, List.mapM_nil]; rfl
      | cons hd tl ih =>
          rw [List.map_cons, List.mapM_cons]
          cases htl : (tl.map (fun kv => (kv.1, f kv.2))).mapM
              (fun kv => do
                let v ← dec kv.2
                pure (kv.1, v)) with
          | error e => rw [htl] at ih; simp [except_bind_error] at ih
          | ok des =>
              rw [htl] at ih
              simp only [except_bind_ok, h hd.2] at ih ⊢
              simp only [Except.ok.injEq, GoMap.mk.injEq] at ih
              show (do
                let v ← Except.ok (g hd.2)
                let des2 ← Except.ok des
                pure ((hd.1, v) :: des2) : Except Unit _) >>= _ = _
              simp only [except_bind_ok]
              simp [ih]

theorem decodeResponse_encodeResponse (r : Response) :
    decodeResponse (encodeResponse r) = Except.ok (normResponse r) := by
  have hc := decodeGoMapVal_encodeGoMapWith encodeMediaType decodeMediaType
    id r.content (fun a => decodeMediaType_encodeMediaType a)
  simp [encodeResponse, decodeResponse, decodeStrField, decodeGoMapField,
    alookup, normResponse, hc, except_bind_ok]

theorem decodeOperation_encodeOperation (op : Operation) :
    decodeOperation (encodeOperation op) = Except.ok (normOperation op) := by
  have hr := decodeGoMapVal_encodeGoMapWith encodeResponse decodeResponse
    normResponse op.responses (fun a => decodeResponse_encodeResponse a)
  simp [encodeOperation, decodeOperation, decodeStrField, decodeGoMapField,
    alookup, normOperation, hr, except_bind_ok]

theorem decodeDoc_encodeDoc (d : SwaggerTemplate) :
    decodeDoc (encodeDoc d) = Except.ok (normDoc d) := by
  have hi := decodeGoMapVal_encodeGoMapWith (id : Yaml → Yaml) Except.ok
    id d.info (fun _ => rfl)
  have hinner : ∀ (inner : GoMap Operation),
      decodeGoMapVal decodeOperation (encodeGoMapWith encodeOperation inner)
        = .ok (gomapToMk normOperation inner) :=
    fun inner => decodeGoMapVal_encodeGoMapWith encodeOperation
      decodeOperation normOperation inner
      (fun a => decodeOperation_encodeOperation a)
  have hp := decodeGoMapVal_encodeGoMapWith
    (encodeGoMapWith encodeOperation) (decodeGoMapVal decodeOperation)
    (gomapToMk normOperation) d.paths hinner
  simp [encodeDoc, decodeDoc, decodeStrField, decodeGoMapField, alookup,
    normDoc, hi, hp, except_bind_ok]

theorem encodeGoMapWith_congr {α : Type} (f f2 : α → Yaml) (m : GoMap α)
    (h : ∀ a, f a = f2 a) :
    encodeGoMapWith f m = encodeGoMapWith f2 m := by
  cases m with
  | nil => rfl
  | mk es => simp [encodeGoMapWith, h]

theorem encodeGoMapWith_gomapToMk {α β : Type} (f : β → Yaml) (g : α → β)
    (m : GoMap α) :
    encodeGoMapWith f (gomapToMk g m) =
      encodeGoMapWith (fun a => f (g a)) m := by
  cases m with
  | nil => rfl
  | mk es => simp [encodeGoMapWith, gomapToMk, List.map_map, Function.comp]

theorem encodeResponse_normResponse (r : Response) :
    encodeResponse (normResponse r) = encodeResponse r := by
  simp only [encodeResponse, normResponse]
  rw [encodeGoMapWith_gomapToMk]
  cases r.content <;> rfl

theorem encodeOperation_normOperation (op : Operation) :
    encodeOperation (normOperation op) = encodeOperation op := by
  simp only [encodeOperation, normOperation]
  rw [encodeGoMapWith_gomapToMk]
  rw [encodeGoMapWith_congr _ encodeResponse _
    (fun r => encodeResponse_normResponse r)]

theorem encodeDoc_normDoc (d : SwaggerTemplate) :
    encodeDoc (normDoc d) = encodeDoc d := by
  simp only [encodeDoc, normDoc]
  rw [encodeGoMapWith_gomapToMk (id : Yaml → Yaml) id d.info]
  rw [encodeGoMapWith_gomapToMk (encodeGoMapWith encodeOperation)
    (gomapToMk normOperation) d.paths]
  rw [encodeGoMapWith_congr
    (fun a => encodeGoMapWith encodeOperation (gomapToMk normOperation a))
    (encodeGoMapWith encodeOperation) d.paths
    (fun inner => by
      show encodeGoMapWith encodeOperation (gomapToMk normOperation inner)
        = encodeGoMapWith encodeOperation inner
      rw [encodeGoMapWith_gomapToMk]
      exact encodeGoMapWith_congr _ _ inner
        (fun op => encodeOperation_normOperation op))]
  cases hinfo : d.info <;> cases hpaths : d.paths <;> rfl

/-! ## Claims C6, C7: persistence -/

/-- C6: `create` writes a fresh document with `openapi = "3.0.3"`, the
fixed info fields and an empty paths mapping, and reading the file back
yields exactly that document. -/
theorem claim6_theorem (fs : FS) (p : String) :
    readSwaggerFile (createSwagger fs p) p = .ok createdDoc ∧
    createdDoc.openapi = "3.0.3" ∧
    createdDoc.info.lookup "title" = some (.str "New API") ∧
    createdDoc.info.lookup "description" =
      some (.str "This is a newly created Swagger API") ∧
    createdDoc.info.lookup "version" = some (.str "1.0.0") ∧
    createdDoc.paths = GoMap.mk [] := by
  refine ⟨?_, rfl, rfl, rfl, rfl, rfl⟩
  unfold createSwagger writeSwaggerFile readSwaggerFile
  rw [alookup_insertRep]
  simp
  rfl

/-- C7: reading back a file just produced by the write operation succeeds,
and writing the document read back reproduces exactly the same file
content (the same keys and values; nil maps reappear as empty maps, which
marshal identically). -/
theorem claim7_theorem (fs : FS) (p : String) (d : SwaggerTemplate) :
    ∃ d2, readSwaggerFile (writeSwaggerFile fs p d) p = .ok d2 ∧
      encodeDoc d2 = encodeDoc d ∧
      ∀ (fs2 : FS) (q : String),
        writeSwaggerFile fs2 q d2 = writeSwaggerFile fs2 q d := by
  refine ⟨normDoc d, ?_, encodeDoc_normDoc d, ?_⟩
  · unfold writeSwaggerFile readSwaggerFile
    rw [alookup_insertRep]
    simp [decodeDoc_encodeDoc]
  · intro fs2 q
    unfold writeSwaggerFile
    rw [encodeDoc_normDoc]

/-! ## Claim C8: error handling of the persistence adapter and update flow -/

/-- C8: the read operation fails with a file error when the path has no
file and with a decode error when the content is not well-formed YAML; and
every failing outcome of the update flow — which runs entirely before the
write step — leaves the file system exactly as it was. -/
theorem claim8_theorem :
    (∀ (fs : FS) (p : String), alookup fs p = none →
      readSwaggerFile fs p = .error .fileError) ∧
    (∀ (fs : FS) (p : String), alookup fs p = some .ybad →
      readSwaggerFile fs p = .error .decodeError) ∧
    (∀ (fs : FS) (f pr mr ir jr : String) (e : UpdateErr),
      (updateSwagger fs f pr mr ir jr).1 = .error e →
      (updateSwagger fs f pr mr ir jr).2 = fs) := by
  refine ⟨?_, ?_, ?_⟩
  · intro fs p h
    simp [readSwaggerFile, h]
  · intro fs p h
    simp [readSwaggerFile, h]
  · intro fs f pr mr ir jr e h
    cases h1 : readSwaggerFile fs f with
    | error er => cases er <;> simp [updateSwagger, h1]
    | ok sw =>
        cases h2 : jsonInputText fs ir jr with
        | error e2 => simp [updateSwagger, h1, h2]
        | ok text =>
            cases h3 : jsonUnmarshalObj text with
            | none => simp [updateSwagger, h1, h2, h3]
            | some jd =>
                cases h4 : generateSchema jd with
                | none => simp [updateSwagger, h1, h2, h3, h4]
                | some sch =>
                    cases h5 : applyOperation sw (goTrimSpace pr)
                        (goToLower (goTrimSpace mr)) sch with
                    | none => simp [updateSwagger, h1, h2, h3, h4, h5]
                    | some sw2 =>
                        simp [updateSwagger, h1, h2, h3, h4, h5] at h

/-- C8 witness: a missing file, a malformed YAML file, and a failing
update command that leaves the (empty) file system untouched. -/
theorem claim8_witness :
    readSwaggerFile [] "a.yaml" = .error .fileError ∧
    readSwaggerFile [("b.yaml", .ybad)] "b.yaml" = .error .decodeError ∧
    (updateSwagger [] "a.yaml" "/p" "get" "notjson" "").2 = [] :=
  ⟨claim8_theorem.1 [] "a.yaml" rfl,
   claim8_theorem.2.1 [("b.yaml", FileData.ybad)] "b.yaml" rfl,
   claim8_theorem.2.2 [] "a.yaml" "/p" "get" "notjson" "" UpdateErr.fileErr rfl⟩

/-! ## Claim C9: case behaviour of the update command's JSON input -/

theorem char_toNat_ofNat (n : Nat) (h : n < 55296) :
    (Char.ofNat n).toNat = n := by
  unfold Char.ofNat
  rw [dif_pos (Or.inl h : n.isValidChar)]
  rfl

theorem isUpperAscii_goCharToLower (c : Char) :
    isUpperAscii (goCharToLower c) = false := by
  unfold goCharToLower
  by_cases h : 65 ≤ c.toNat ∧ c.toNat ≤ 90
  · rw [if_pos h]
    have h2 : c.toNat + 32 < 55296 := by omega
    simp only [isUpperAscii, char_toNat_ofNat _ h2, decide_eq_false_iff_not]
    omega
  · rw [if_neg h]
    simp only [isUpperAscii, decide_eq_false_iff_not]
    exact h

theorem goToLower_data (s : String) :
    (goToLower s).data = s.data.map goCharToLower := rfl

theorem strNoUpper_iff (s : String) :
    strNoUpper s = true ↔ ∀ c ∈ s.data, isUpperAscii c = false := by
  simp [strNoUpper, List.all_eq_true]

theorem strNoUpper_goToLower (s : String) :
    strNoUpper (goToLower s) = true := by
  rw [strNoUpper_iff, goToLower_data]
  intro c hc
  obtain ⟨a, _, rfl⟩ := List.mem_map.mp hc
  exact isUpperAscii_goCharToLower a

theorem goTrimSpace_data_subset (s : String) :
    ∀ c ∈ (goTrimSpace s).data, c ∈ s.data := by
  intro c hc
  have hdata : (goTrimSpace s).data =
      ((s.data.dropWhile Char.isWhitespace).reverse.dropWhile
        Char.isWhitespace).reverse := rfl
  rw [hdata, List.mem_reverse] at hc
  have hc2 := (List.dropWhile_sublist (l :=
    (s.data.dropWhile Char.isWhitespace).reverse)
    (p := Char.isWhitespace)).subset hc
  rw [List.mem_reverse] at hc2
  exact (List.dropWhile_sublist (l := s.data)
    (p := Char.isWhitespace)).subset hc2

theorem strNoUpper_goTrimSpace_goToLower (s : String) :
    strNoUpper (goTrimSpace (goToLower s)) = true := by
  rw [strNoUpper_iff]
  intro c hc
  have hmem := goTrimSpace_data_subset (goToLower s) c hc
  exact (strNoUpper_iff (goToLower s)).mp (strNoUpper_goToLower s) c hmem

/-- The cleanliness condition C9's amended statement needs on the text
handed to the JSON decoder: no ASCII uppercase letter and no backslash. -/
def cleanChars (cs : List Char) : Prop :=
  ∀ c ∈ cs, isUpperAscii c = false ∧ c ≠ bslash

theorem cleanChars_of_subset {cs r : List Char} (h : cleanChars cs)
    (hsub : ∀ c ∈ r, c ∈ cs) : cleanChars r :=
  fun c hc => h c (hsub c hc)

theorem skipWs_subset (cs : List Char) : ∀ c ∈ skipWs cs, c ∈ cs :=
  fun _ hc => (List.dropWhile_sublist (l := cs) (p := isJsonWs)).subset hc

theorem parseStrChars_clean : ∀ (cs : List Char),
    (∀ c ∈ cs, c ≠ bslash) →
    ∀ o r, parseStrChars cs = some (o, r) →
      (∀ c ∈ o, c ∈ cs) ∧ (∀ c ∈ r, c ∈ cs)
  | [] => by intro h o r hp; simp [parseStrChars] at hp
  | c :: rest => by
      intro h o r hp
      by_cases hq : c = '"'
      · rw [parseStrChars.eq_def] at hp
        simp only at hp
        rw [if_pos hq] at hp
        obtain ⟨rfl, rfl⟩ := Prod.mk.injEq .. ▸ Option.some.inj hp
        exact ⟨fun c hc => absurd hc (List.not_mem_nil c),
          fun c hc => List.mem_cons_of_mem _ hc⟩
      · have hb : c ≠ bslash := h c (List.mem_cons_self c rest)
        rw [parseStrChars.eq_def] at hp
        simp only at hp
        rw [if_neg hq, if_neg hb] at hp
        cases hrec : parseStrChars rest with
        | none => rw [hrec] at hp; exact absurd hp (by simp)
        | some pr =>
            obtain ⟨o2, r2⟩ := pr
            rw [hrec] at hp
            obtain ⟨rfl, rfl⟩ := Prod.mk.injEq .. ▸ Option.some.inj hp
            have hrest := parseStrChars_clean rest
              (fun c hc => h c (List.mem_cons_of_mem _ hc)) o2 r2 hrec
            constructor
            · intro x hx
              rcases List.mem_cons.mp hx with rfl | hx2
              · exact List.mem_cons_self _ _
              · exact List.mem_cons_of_mem _ (hrest.1 x hx2)
            · exact fun x hx => List.mem_cons_of_mem _ (hrest.2 x hx)

theorem stripLit_subset : ∀ (ls cs r : List Char),
    stripLit ls cs = some r → ∀ c ∈ r, c ∈ cs
  | [], cs, r => by
      intro h c hc
      cases h
      exact hc
  | l :: ls, c0 :: cs, r => by
      intro h c hc
      rw [stripLit] at h
      by_cases hq : c0 = l
      · rw [if_pos hq] at h
        exact List.mem_cons_of_mem _ (stripLit_subset ls cs r h c hc)
      · rw [if_neg hq] at h
        exact absurd h (by simp)
  | _ :: _, [], r => by intro h; exact absurd h (by simp [stripLit])

theorem gpairsNoUpper_mem (m : List (String × Gval))
    (h : gpairsNoUpper m = true) :
    ∀ kv ∈ m, strNoUpper kv.1 = true ∧ gvalNoUpper kv.2 = true := by
  induction m with
  | nil => intro kv hm; simp at hm
  | cons hd tl ih =>
      obtain ⟨k, v⟩ := hd
      rw [gpairsNoUpper, Bool.and_eq_true, Bool.and_eq_true] at h
      intro kv hm
      rcases List.mem_cons.mp hm with rfl | hm2
      · exact ⟨h.1.1, h.1.2⟩
      · exact ih h.2 kv hm2

theorem gpairsNoUpper_insertRep (acc : List (String × Gval)) (k : String)
    (v : Gval) (hacc : gpairsNoUpper acc = true)
    (hk : strNoUpper k = true) (hv : gvalNoUpper v = true) :
    gpairsNoUpper (insertRep acc k v) = true := by
  induction acc with
  | nil => simp [insertRep, gpairsNoUpper, hk, hv]
  | cons hd tl ih =>
      obtain ⟨k1, w⟩ := hd
      rw [gpairsNoUpper, Bool.and_eq_true, Bool.and_eq_true] at hacc
      rw [insertRep]
      by_cases hq : k1 = k
      · rw [if_pos hq]
        simp [gpairsNoUpper, hk, hv, hacc.2]
      · rw [if_neg hq]
        simp [gpairsNoUpper, hacc.1.1, hacc.1.2, ih hacc.2]

theorem glistNoUpper_append (l1 l2 : List Gval)
    (h1 : glistNoUpper l1 = true) (h2 : glistNoUpper l2 = true) :
    glistNoUpper (l1 ++ l2) = true := by
  induction l1 with
  | nil => simpa using h2
  | cons hd tl ih =>
      rw [glistNoUpper, Bool.and_eq_true] at h1
      rw [List.cons_append, glistNoUpper, Bool.and_eq_true]
      exact ⟨h1.1, ih h1.2⟩

theorem parse_clean (fuel : Nat) :
    (∀ cs v r, cleanChars cs → parseVal fuel cs = some (v, r) →
      gvalNoUpper v = true ∧ ∀ c ∈ r, c ∈ cs) ∧
    (∀ cs v r, cleanChars cs → parseObjBody fuel cs = some (v, r) →
      gvalNoUpper v = true ∧ ∀ c ∈ r, c ∈ cs) ∧
    (∀ cs acc v r, cleanChars cs → gpairsNoUpper acc = true →
      parseMembers fuel cs acc = some (v, r) →
      gvalNoUpper v = true ∧ ∀ c ∈ r, c ∈ cs) ∧
    (∀ cs v r, cleanChars cs → parseArrBody fuel cs = some (v, r) →
      gvalNoUpper v = true ∧ ∀ c ∈ r, c ∈ cs) ∧
    (∀ cs acc v r, cleanChars cs → glistNoUpper acc = true →
      parseElems fuel cs acc = some (v, r) →
      gvalNoUpper v = true ∧ ∀ c ∈ r, c ∈ cs) := by
  induction fuel with
  | zero =>
      refine ⟨?_, ?_, ?_, ?_, ?_⟩
      · intro cs v r _ hp; exact absurd hp (by simp [parseVal])
      · intro cs v r _ hp; exact absurd hp (by simp [parseObjBody])
      · intro cs acc v r _ _ hp; exact absurd hp (by simp [parseMembers])
      · intro cs v r _ hp; exact absurd hp (by simp [parseArrBody])
      · intro cs acc v r _ _ hp; exact absurd hp (by simp [parseElems])
  | succ fuel ih =>
      obtain ⟨ihv, iho, ihm, iha, ihe⟩ := ih
      have hval : ∀ cs v r, cleanChars cs →
          parseVal (Nat.succ fuel) cs = some (v, r) →
          gvalNoUpper v = true ∧ ∀ c ∈ r, c ∈ cs := by
        intro cs v r hclean hp
        rw [parseVal] at hp
        cases hskip : skipWs cs with
        | nil => rw [hskip] at hp; exact absurd hp (by simp)
        | cons c rest =>
            rw [hskip] at hp
            simp only at hp
            have hsub : ∀ x ∈ c :: rest, x ∈ cs := by
              rw [← hskip]; exact skipWs_subset cs
            have hcrest : cleanChars (c :: rest) :=
              cleanChars_of_subset hclean hsub
            have hrest : cleanChars rest :=
              fun x hx => hcrest x (List.mem_cons_of_mem _ hx)
            by_cases h1 : c = '"'
            · rw [if_pos h1] at hp
              cases hstr : parseStrChars rest with
              | none => rw [hstr] at hp; exact absurd hp (by simp)
              | some pr =>
                  obtain ⟨o, r2⟩ := pr
                  rw [hstr] at hp
                  simp only at hp
                  obtain ⟨rfl, rfl⟩ := Prod.mk.injEq .. ▸ Option.some.inj hp
                  have hsc := parseStrChars_clean rest
                    (fun x hx => (hrest x hx).2) o r2 hstr
                  constructor
                  · rw [gvalNoUpper, strNoUpper_iff]
                    intro x hx
                    exact (hrest x (hsc.1 x hx)).1
                  · intro x hx
                    exact hsub x (List.mem_cons_of_mem _ (hsc.2 x hx))
            · rw [if_neg h1] at hp
              by_cases h2 : c = lbrace
              · rw [if_pos h2] at hp
                have hres := iho rest v r hrest hp
                exact ⟨hres.1, fun x hx =>
                  hsub x (List.mem_cons_of_mem _ (hres.2 x hx))⟩
              · rw [if_neg h2] at hp
                by_cases h3 : c = '['
                · rw [if_pos h3] at hp
                  have hres := iha rest v r hrest hp
                  exact ⟨hres.1, fun x hx =>
                    hsub x (List.mem_cons_of_mem _ (hres.2 x hx))⟩
                · rw [if_neg h3] at hp
                  by_cases h4 : c = 't'
                  · rw [if_pos h4] at hp
                    cases hlit : stripLit ['r', 'u', 'e'] rest with
                    | none => rw [hlit] at hp; exact absurd hp (by simp)
                    | some r2 =>
                        rw [hlit] at hp
                        simp only at hp
                        obtain ⟨rfl, rfl⟩ :=
                          Prod.mk.injEq .. ▸ Option.some.inj hp
                        exact ⟨rfl, fun x hx => hsub x
                          (List.mem_cons_of_mem _
                            (stripLit_subset _ rest r2 hlit x hx))⟩
                  · rw [if_neg h4] at hp
                    by_cases h5 : c = 'f'
                    · rw [if_pos h5] at hp
                      cases hlit : stripLit ['a', 'l', 's', 'e'] rest with
                      | none => rw [hlit] at hp; exact absurd hp (by simp)
                      | some r2 =>
                          rw [hlit] at hp
                          simp only at hp
                          obtain ⟨rfl, rfl⟩ :=
                            Prod.mk.injEq .. ▸ Option.some.inj hp
                          exact ⟨rfl, fun x hx => hsub x
                            (List.mem_cons_of_mem _
                              (stripLit_subset _ rest r2 hlit x hx))⟩
                    · rw [if_neg h5] at hp
                      by_cases h6 : c = 'n'
                      · rw [if_pos h6] at hp
                        cases hlit : stripLit ['u', 'l', 'l'] rest with
                        | none => rw [hlit] at hp; exact absurd hp (by simp)
                        | some r2 =>
                            rw [hlit] at hp
                            simp only at hp
                            obtain ⟨rfl, rfl⟩ :=
                              Prod.mk.injEq .. ▸ Option.some.inj hp
                            exact ⟨rfl, fun x hx => hsub x
                              (List.mem_cons_of_mem _
                                (stripLit_subset _ rest r2 hlit x hx))⟩
                      · rw [if_neg h6] at hp
                        cases hnum : ratFromTok
                            ((c :: rest).takeWhile isNumChar) with
                        | none => rw [hnum] at hp; exact absurd hp (by simp)
                        | some q =>
                            rw [hnum] at hp
                            simp only at hp
                            obtain ⟨rfl, rfl⟩ :=
                              Prod.mk.injEq .. ▸ Option.some.inj hp
                            refine ⟨rfl, fun x hx => hsub x ?_⟩
                            exact (List.dropWhile_sublist
                              (l := c :: rest) (p := isNumChar)).subset hx
      have hobj : ∀ cs v r, cleanChars cs →
          parseObjBody (Nat.succ fuel) cs = some (v, r) →
          gvalNoUpper v = true ∧ ∀ c ∈ r, c ∈ cs := by
        intro cs v r hclean hp
        rw [parseObjBody] at hp
        cases hskip : skipWs cs with
        | nil => rw [hskip] at hp; exact absurd hp (by simp)
        | cons c rest =>
            rw [hskip] at hp
            simp only at hp
            have hsub : ∀ x ∈ c :: rest, x ∈ cs := by
              rw [← hskip]; exact skipWs_subset cs
            have hcrest : cleanChars (c :: rest) :=
              cleanChars_of_subset hclean hsub
            by_cases h1 : c = rbrace
            · rw [if_pos h1] at hp
              obtain ⟨rfl, rfl⟩ := Prod.mk.injEq .. ▸ Option.some.inj hp
              exact ⟨rfl, fun x hx =>
                hsub x (List.mem_cons_of_mem _ hx)⟩
            · rw [if_neg h1] at hp
              have hres := ihm (c :: rest) [] v r hcrest rfl hp
              exact ⟨hres.1, fun x hx => hsub x (hres.2 x hx)⟩
      have hmem : ∀ cs acc v r, cleanChars cs → gpairsNoUpper acc = true →
          parseMembers (Nat.succ fuel) cs acc = some (v, r) →
          gvalNoUpper v = true ∧ ∀ c ∈ r, c ∈ cs := by
        intro cs acc v r hclean hacc hp
        rw [parseMembers] at hp
        cases hskip : skipWs cs with
        | nil => rw [hskip] at hp; exact absurd hp (by simp)
        | cons c rest =>
            rw [hskip] at hp
            simp only at hp
            have hsub : ∀ x ∈ c :: rest, x ∈ cs := by
              rw [← hskip]; exact skipWs_subset cs
            have hcrest : cleanChars (c :: rest) :=
              cleanChars_of_subset hclean hsub
            have hrest : cleanChars rest :=
              fun x hx => hcrest x (List.mem_cons_of_mem _ hx)
            by_cases h1 : c = '"'
            · rw [if_pos h1] at hp
              cases hstr : parseStrChars rest with
              | none => rw [hstr] at hp; exact absurd hp (by simp)
              | some pr =>
                  obtain ⟨kcs, r1⟩ := pr
                  rw [hstr] at hp
                  simp only at hp
                  have hsc := parseStrChars_clean rest
                    (fun x hx => (hrest x hx).2) kcs r1 hstr
                  have hr1 : cleanChars r1 :=
                    cleanChars_of_subset hrest hsc.2
                  have hkey : strNoUpper (String.mk kcs) = true := by
                    rw [strNoUpper_iff]
                    intro x hx
                    exact (hrest x (hsc.1 x hx)).1
                  cases hskip2 : skipWs r1 with
                  | nil => rw [hskip2] at hp; exact absurd hp (by simp)
                  | cons c1 r2 =>
                      rw [hskip2] at hp
                      simp only at hp
                      have hsub2 : ∀ x ∈ c1 :: r2, x ∈ r1 := by
                        rw [← hskip2]; exact skipWs_subset r1
                      have hr2 : cleanChars r2 :=
                        cleanChars_of_subset hr1
                          (fun x hx => hsub2 x (List.mem_cons_of_mem _ hx))
                      by_cases h2 : c1 = ':'
                      · rw [if_pos h2] at hp
                        cases hpv : parseVal fuel r2 with
                        | none => rw [hpv] at hp; exact absurd hp (by simp)
                        | some pv =>
                            obtain ⟨v2, r3⟩ := pv
                            rw [hpv] at hp
                            simp only at hp
                            have hres := ihv r2 v2 r3 hr2 hpv
                            have hr3 : cleanChars r3 :=
                              cleanChars_of_subset hr2 hres.2
                            have hacc2 : gpairsNoUpper
                                (insertRep acc (String.mk kcs) v2) = true :=
                              gpairsNoUpper_insertRep acc _ _ hacc hkey hres.1
                            have hchain : ∀ x ∈ r3, x ∈ cs := fun x hx =>
                              hsub _ (List.mem_cons_of_mem _ (hsc.2 _
                                (hsub2 _ (List.mem_cons_of_mem _
                                  (hres.2 x hx)))))
                            cases hskip3 : skipWs r3 with
                            | nil => rw [hskip3] at hp
                                     exact absurd hp (by simp)
                            | cons c2 r4 =>
                                rw [hskip3] at hp
                                simp only at hp
                                have hsub3 : ∀ x ∈ c2 :: r4, x ∈ r3 := by
                                  rw [← hskip3]; exact skipWs_subset r3
                                have hr4 : cleanChars r4 :=
                                  cleanChars_of_subset hr3 (fun x hx =>
                                    hsub3 x (List.mem_cons_of_mem _ hx))
                                have hr4cs : ∀ x ∈ r4, x ∈ cs := fun x hx =>
                                  hchain x (hsub3 x
                                    (List.mem_cons_of_mem _ hx))
                                by_cases h3 : c2 = ','
                                · rw [if_pos h3] at hp
                                  have hres2 := ihm r4 _ v r hr4 hacc2 hp
                                  exact ⟨hres2.1, fun x hx =>
                                    hr4cs x (hres2.2 x hx)⟩
                                · rw [if_neg h3] at hp
                                  by_cases h4 : c2 = rbrace
                                  · rw [if_pos h4] at hp
                                    obtain ⟨rfl, rfl⟩ :=
                                      Prod.mk.injEq .. ▸ Option.some.inj hp
                                    exact ⟨hacc2, hr4cs⟩
                                  · rw [if_neg h4] at hp
                                    exact absurd hp (by simp)
                      · rw [if_neg h2] at hp
                        exact absurd hp (by simp)
            · rw [if_neg h1] at hp
              exact absurd hp (by simp)
      have harr : ∀ cs v r, cleanChars cs →
          parseArrBody (Nat.succ fuel) cs = some (v, r) →
          gvalNoUpper v = true ∧ ∀ c ∈ r, c ∈ cs := by
        intro cs v r hclean hp
        rw [parseArrBody] at hp
        cases hskip : skipWs cs with
        | nil => rw [hskip] at hp; exact absurd hp (by simp)
        | cons c rest =>
            rw [hskip] at hp
            simp only at hp
            have hsub : ∀ x ∈ c :: rest, x ∈ cs := by
              rw [← hskip]; exact skipWs_subset cs
            have hcrest : cleanChars (c :: rest) :=
              cleanChars_of_subset hclean hsub
            by_cases h1 : c = ']'
            · rw [if_pos h1] at hp
              obtain ⟨rfl, rfl⟩ := Prod.mk.injEq .. ▸ Option.some.inj hp
              exact ⟨rfl, fun x hx => hsub x (List.mem_cons_of_mem _ hx)⟩
            · rw [if_neg h1] at hp
              have hres := ihe (c :: rest) [] v r hcrest rfl hp
              exact ⟨hres.1, fun x hx => hsub x (hres.2 x hx)⟩
      have helems : ∀ cs acc v r, cleanChars cs → glistNoUpper acc = true →
          parseElems (Nat.succ fuel) cs acc = some (v, r) →
          gvalNoUpper v = true ∧ ∀ c ∈ r, c ∈ cs := by
        intro cs acc v r hclean hacc hp
        rw [parseElems] at hp
        cases hpv : parseVal fuel cs with
        | none => rw [hpv] at hp; exact absurd hp (by simp)
        | some pv =>
            obtain ⟨v2, r2⟩ := pv
            rw [hpv] at hp
            simp only at hp
            have hres := ihv cs v2 r2 hclean hpv
            have hr2 : cleanChars r2 := cleanChars_of_subset hclean hres.2
            have hacc2 : glistNoUpper (acc ++ [v2]) = true :=
              glistNoUpper_append acc [v2] hacc
                (by simp [glistNoUpper, hres.1])
            cases hskip : skipWs r2 with
            | nil => rw [hskip] at hp; exact absurd hp (by simp)
            | cons c2 r3 =>
                rw [hskip] at hp
                simp only at hp
                have hsub2 : ∀ x ∈ c2 :: r3, x ∈ r2 := by
                  rw [← hskip]; exact skipWs_subset r2
                have hr3 : cleanChars r3 := cleanChars_of_subset hr2
                  (fun x hx => hsub2 x (List.mem_cons_of_mem _ hx))
                have hr3cs : ∀ x ∈ r3, x ∈ cs := fun x hx =>
                  hres.2 _ (hsub2 _ (List.mem_cons_of_mem _ hx))
                by_cases h1 : c2 = ','
                · rw [if_pos h1] at hp
                  have hres2 := ihe r3 _ v r hr3 hacc2 hp
                  exact ⟨hres2.1, fun x hx => hr3cs x (hres2.2 x hx)⟩
                · rw [if_neg h1] at hp
                  by_cases h2 : c2 = ']'
                  · rw [if_pos h2] at hp
                    obtain ⟨rfl, rfl⟩ :=
                      Prod.mk.injEq .. ▸ Option.some.inj hp
                    exact ⟨hacc2, hr3cs⟩
                  · rw [if_neg h2] at hp
                    exact absurd hp (by simp)
      exact ⟨hval, hobj, hmem, harr, helems⟩

/-- C9 counterexample: for the literal prompt input `claim9Input` — whose
`"a"` value is written with the unicode escape u0052 for `R` — the
lower-cased, trimmed text handed to the JSON decoder is the input itself,
since it contains no uppercase letter as text; yet the decoded object's
string value is `"Rex"`, with an uppercase `R` produced by the escape. -/
theorem claim9_counterexample :
    jsonInputText [] claim9Input "" = .ok claim9Input ∧
    jsonUnmarshalObj claim9Input = some [("a", Gval.gstr "Rex")] ∧
    strNoUpper "Rex" = false :=
  ⟨rfl, rfl, rfl⟩

/-- C9 (amended): when the update command's JSON is supplied as a literal
string at the prompt (any input whose lower-cased, trimmed form is not the
keyword `"file"`), the text handed to the JSON decoder is the lower-cased
and trimmed input line, which contains no uppercase letters; consequently,
when that text contains no backslash escape sequences, every key and every
string value in the decoded object — and hence every property name of the
inferred schema — contains no uppercase letters.  A `\uXXXX` escape can
still denote an uppercase letter (see the counterexample).  Only the
file-path variant passes the JSON content through with its case
preserved. -/
theorem claim9_amended_theorem :
    (∀ (fs : FS) (inputRaw jsonFileRaw : String),
      goTrimSpace (goToLower inputRaw) ≠ "file" →
      jsonInputText fs inputRaw jsonFileRaw =
        .ok (goTrimSpace (goToLower inputRaw)) ∧
      strNoUpper (goTrimSpace (goToLower inputRaw)) = true) ∧
    (∀ (s : String) (m : List (String × Gval)),
      strNoUpper s = true → bslash ∉ s.data →
      jsonUnmarshalObj s = some m → gpairsNoUpper m = true) ∧
    (∀ (fs : FS) (inputRaw jsonFileRaw content : String),
      goTrimSpace (goToLower inputRaw) = "file" →
      alookup fs (goTrimSpace jsonFileRaw) = some (.jtext content) →
      jsonInputText fs inputRaw jsonFileRaw = .ok content) ∧
    (∀ (m : List (String × Gval)) (s : Schema),
      (m.map Prod.fst).Nodup → gpairsNoUpper m = true →
      generateSchema m = some s →
      ∀ kv ∈ s.properties, strNoUpper kv.1 = true) := by
  refine ⟨?_, ?_, ?_, ?_⟩
  · intro fs inputRaw jsonFileRaw h
    refine ⟨?_, strNoUpper_goTrimSpace_goToLower inputRaw⟩
    simp [jsonInputText, h]
  · intro s m hns hb hp
    have hclean : cleanChars s.data := by
      intro c hc
      exact ⟨(strNoUpper_iff s).mp hns c hc, fun he => hb (he ▸ hc)⟩
    unfold jsonUnmarshalObj at hp
    cases hpv : parseVal (2 * s.length + 8) s.toList with
    | none => rw [hpv] at hp; exact absurd hp (by simp)
    | some pv =>
        obtain ⟨v, rest⟩ := pv
        rw [hpv] at hp
        simp only at hp
        have hres := (parse_clean (2 * s.length + 8)).1 s.toList v rest
          (by
            have : s.toList = s.data := rfl
            rw [this]
            exact hclean) hpv
        by_cases hemp : (skipWs rest).isEmpty = true
        · rw [if_pos hemp] at hp
          cases v with
          | gobj m2 =>
              cases Option.some.inj hp
              exact hres.1
          | gstr s2 => exact absurd hp (by simp)
          | gnum q => exact absurd hp (by simp)
          | gbool b => exact absurd hp (by simp)
          | garr l => exact absurd hp (by simp)
          | gnil => exact absurd hp (by simp)
        · rw [if_neg hemp] at hp
          exact absurd hp (by simp)
  · intro fs inputRaw jsonFileRaw content h hl
    simp [jsonInputText, h, hl]
  · intro m s hnd hup hgen kv hkv
    have hnn := generateSchema_some_nonnil m s hgen
    rw [generateSchema_eq m hnd hnn] at hgen
    cases hgen
    simp only [Schema.properties, List.mem_map] at hkv
    obtain ⟨kv0, hkv0, rfl⟩ := hkv
    exact (gpairsNoUpper_mem m hup kv0 hkv0).1

/-- C9 witness: the four parts of the amended theorem exercised at
concrete inputs: a literal input with uppercase letters is lower-cased, a
clean lower-case literal decodes to a lower-case object, the file variant
passes content through unchanged, and inferred property names inherit the
lower-case keys. -/
theorem claim9_witness :
    (jsonInputText [] "\x7b\"A\": \"B\"\x7d" "" =
      .ok (goTrimSpace (goToLower "\x7b\"A\": \"B\"\x7d")) ∧
     strNoUpper (goTrimSpace (goToLower "\x7b\"A\": \"B\"\x7d")) = true) ∧
    gpairsNoUpper [("a", Gval.gstr "b")] = true ∧
    jsonInputText [("j.json", .jtext "\x7b\"R\": 1\x7d")] "FILE" " j.json " =
      .ok "\x7b\"R\": 1\x7d" ∧
    (∀ kv ∈ (Schema.mk "object" [("k", Schema.mk "string" [])]).properties,
      strNoUpper kv.1 = true) := by
  refine ⟨?_, ?_, ?_, ?_⟩
  · exact claim9_amended_theorem.1 [] "\x7b\"A\": \"B\"\x7d" "" (by decide)
  · exact claim9_amended_theorem.2.1 "\x7b\"a\": \"b\"\x7d"
      [("a", Gval.gstr "b")] (by decide) (by decide) rfl
  · exact claim9_amended_theorem.2.2.1 [("j.json", .jtext "\x7b\"R\": 1\x7d")]
      "FILE" " j.json " "\x7b\"R\": 1\x7d" (by decide) rfl
  · exact claim9_amended_theorem.2.2.2 [("k", Gval.gstr "v")]
      (Schema.mk "object" [("k", Schema.mk "string" [])])
      (by simp) rfl rfl

end Swagger
